import Mathlib

/-!
Verification of the `equals.rs` document-evaluation pipeline.

Strings are modelled as `List Char`; byte columns of the Rust source become
character columns (`String::len` ↦ `List.length`, `saturating_sub` ↦ truncated
`Nat` subtraction).  Every definition follows one function of the source:

* `Block`, `Line`, `Document`, `Document.reconstruct`, `Document.evaluateWith`
  follow `src/document.rs` (the in-place mutation of `evaluate_with` is modelled
  as a function returning the updated document; Rust's stable `sort_by_key` is
  modelled by Mathlib's stable `List.insertionSort`; the `HashMap` built by
  repeated `insert` — later inserts overwrite — is modelled by `lookupUpdate`,
  which returns the content of the last update carrying a given id; the
  `remove` during merge is equivalent to a lookup because merge visits each id
  exactly once).
* `MarkdownParser.parse`, `scanChar`, `flushInlineBuffers`, `isFence` follow
  `src/markdown.rs`.
* `PlainParser.parse` follows `src/parser.rs` (`str::lines` is modelled by
  `rustLines`: split after every newline, then strip a trailing `"\n"` or
  `"\r\n"` from each piece).
* `CodeLine`, `CodeLine.reconstruct`, `splitLine` follow `src/lang/mod.rs`
  (`str::find` for a substring is modelled by `findSub`, `str::trim` by `trim`).
-/

namespace EqualsRs

abbrev Str := List Char

/-- The backtick character, U+0060. -/
def tick : Char := Char.ofNat 96

/-! ## Document model (`src/document.rs`) -/

inductive Block where
  | text : Nat × Nat → Str → Block
  | code : Nat × Nat → Str → Block
deriving DecidableEq

def Block.start : Block → Nat
  | .text (s, _) _ => s
  | .code (s, _) _ => s

def Block.content : Block → Str
  | .text _ c => c
  | .code _ c => c

def Block.isCode : Block → Bool
  | .text _ _ => false
  | .code _ _ => true

structure Line where
  number : Nat
  blocks : List Block
deriving DecidableEq

structure Document where
  lines : List Line
deriving DecidableEq

/-- Erase code contents only: the part of a document `evaluate_with` may change.
Everything kept by this map (line numbers, block kinds, ranges, text contents,
counts and order) is the frame of the transformation. -/
def Block.eraseCodeContent : Block → Block
  | .text r t => .text r t
  | .code r _ => .code r []

def Line.shape (l : Line) : Nat × List Block :=
  (l.number, l.blocks.map Block.eraseCodeContent)

/-- The comparison used by `blocks.sort_by_key(|b| start)`. -/
def blockLe (a b : Block) : Prop := a.start ≤ b.start

instance : DecidableRel blockLe := fun a b => Nat.decLe a.start b.start

/-- One line of `Document::reconstruct`: stable-sort the spans by start column
and concatenate their contents. -/
def reconstructLine (l : Line) : Str :=
  ((l.blocks.insertionSort blockLe).map Block.content).flatten

/-- `Document::reconstruct`: per-line concatenation, lines joined by `"\n"`. -/
def Document.reconstruct (d : Document) : Str :=
  List.intercalate ['\n'] (d.lines.map reconstructLine)

/-! ## Extraction / merge (`Document::evaluate_with`) -/

structure CodeBlock where
  id : Nat
  content : Str
deriving DecidableEq

structure CodeBlockUpdate where
  id : Nat
  content : Str
deriving DecidableEq

/-- Code contents of a block list in storage order. -/
def blocksCode (bs : List Block) : List Str :=
  bs.filterMap fun b => match b with
    | .code _ c => some c
    | .text _ _ => none

/-- All code-span contents of a document in traversal order (lines in order,
blocks within a line in storage order). -/
def codeContents (d : Document) : List Str :=
  (d.lines.map fun l => blocksCode l.blocks).flatten

/-- Pair each element of a list with its index, starting at `n`. -/
def idxFrom (n : Nat) : List Str → List (Nat × Str)
  | [] => []
  | c :: cs => (n, c) :: idxFrom (n + 1) cs

def mkCB (p : Nat × Str) : CodeBlock := ⟨p.1, p.2⟩

/-- The extraction loop of `evaluate_with`: each encountered code span is
pushed with id `extracted.len()`. -/
def extractBlocks : List Block → List CodeBlock → List CodeBlock
  | [], acc => acc
  | .code _ c :: bs, acc => extractBlocks bs (acc ++ [⟨acc.length, c⟩])
  | .text _ _ :: bs, acc => extractBlocks bs acc

def extractDoc (d : Document) : List CodeBlock :=
  d.lines.foldl (fun acc l => extractBlocks l.blocks acc) []

/-- The `updates_map` of `evaluate_with`: `HashMap::insert` overwrites, so the
content associated with an id is the one of the last update carrying it. -/
def lookupUpdate (updates : List CodeBlockUpdate) (i : Nat) : Option Str :=
  (updates.reverse.find? fun u => u.id = i).map CodeBlockUpdate.content

/-- The merge loop of `evaluate_with` over one line's blocks: the `i`-th code
span (in traversal order) receives the update for id `i` when present,
otherwise its original content. -/
def mergeBlocks (upd : Nat → Option Str) : List Block → Nat → List Block × Nat
  | [], i => ([], i)
  | .code r c :: bs, i =>
    let c' := match upd i with
      | some u => u
      | none => c
    let p := mergeBlocks upd bs (i + 1)
    (.code r c' :: p.1, p.2)
  | .text r t :: bs, i =>
    let p := mergeBlocks upd bs i
    (.text r t :: p.1, p.2)

def mergeLines (upd : Nat → Option Str) : List Line → Nat → List Line
  | [], _ => []
  | l :: ls, i =>
    let p := mergeBlocks upd l.blocks i
    ⟨l.number, p.1⟩ :: mergeLines upd ls p.2

/-- `Document::evaluate_with`.  The early return on an empty extraction means
the evaluator is never invoked for a code-free document. -/
def Document.evaluateWith (d : Document) (evaluator : List CodeBlock → List CodeBlockUpdate) :
    Document :=
  let extracted := extractDoc d
  if extracted.isEmpty then d
  else ⟨mergeLines (lookupUpdate (evaluator extracted)) d.lines 0⟩

/-! ## Markdown scanner (`src/markdown.rs`) -/

structure ScanState where
  blocks : List Block
  textBuf : Str
  codeBuf : Str
  insideInline : Bool
  col : Nat
deriving DecidableEq

def initState : ScanState := ⟨[], [], [], false, 0⟩

/-- One character of the scanning loop of `parse_inline_code_line`. -/
def scanChar (s : ScanState) (ch : Char) : ScanState :=
  if ch = tick then
    if s.insideInline then
      ⟨s.blocks ++ [Block.code (s.col - s.codeBuf.length, s.col) s.codeBuf],
        s.textBuf ++ [tick], [], false, s.col + 1⟩
    else
      let tb := s.textBuf ++ [tick]
      if tb = [] then ⟨s.blocks, tb, s.codeBuf, true, s.col + 1⟩
      else ⟨s.blocks ++ [Block.text (s.col - tb.length, s.col) tb],
        [], s.codeBuf, true, s.col + 1⟩
  else if s.insideInline then
    ⟨s.blocks, s.textBuf, s.codeBuf ++ [ch], true, s.col + 1⟩
  else
    ⟨s.blocks, s.textBuf ++ [ch], s.codeBuf, false, s.col + 1⟩

/-- `MarkdownParser::flush_inline_buffers`. -/
def flushInlineBuffers (blocks : List Block) (textBuf codeBuf : Str)
    (insideInline : Bool) (col : Nat) (number : Nat) : Line :=
  if insideInline then
    let fullText := (blocks.map Block.content).flatten ++ textBuf ++ codeBuf
    ⟨number, [Block.text (0, fullText.length) fullText]⟩
  else if textBuf = [] then ⟨number, blocks⟩
  else ⟨number, blocks ++ [Block.text (col - textBuf.length, col) textBuf]⟩

def parseInlineCodeLine (number : Nat) (line : Str) : Line :=
  let s := line.foldl scanChar initState
  flushInlineBuffers s.blocks s.textBuf s.codeBuf s.insideInline s.col number

/-- Blocks with non-empty content: the only ones that matter for
concatenation. -/
def nonEmptyBlock (b : Block) : Bool := !b.content.isEmpty

/-- Lower bound on the start column of every block the scanner will push from
state `s` onwards. -/
def scanFloor (s : ScanState) : Nat :=
  if s.insideInline then s.col - s.codeBuf.length - 1
  else s.col - s.textBuf.length - 1

/-- Invariant of the scanning loop of `parse_inline_code_line` after consuming
`consumed`: the blocks plus pending buffers concatenate back to the consumed
input, the column counter tracks its length, the idle buffer is empty, and the
non-empty blocks pushed so far are sorted by start column, all of them at or
below `scanFloor`. -/
def ScanInv (s : ScanState) (consumed : Str) : Prop :=
  (s.blocks.map Block.content).flatten ++ s.textBuf ++ s.codeBuf = consumed ∧
  s.col = consumed.length ∧
  (s.insideInline = true → s.textBuf = []) ∧
  (s.insideInline = false → s.codeBuf = []) ∧
  List.Sorted blockLe (s.blocks.filter nonEmptyBlock) ∧
  ∀ b ∈ s.blocks, b.content ≠ [] → b.start ≤ scanFloor s

/-- `MarkdownParser::is_fence`. -/
def isFence (line : Str) : Bool :=
  [tick, tick, tick].isPrefixOf (line.dropWhile Char.isWhitespace)

/-- `MarkdownParser::parse_line`, returning the line and the updated
`in_code_block` flag. -/
def parseMdLine (number : Nat) (line : Str) (inCodeBlock : Bool) : Line × Bool :=
  if isFence line then
    (⟨number, [Block.text (0, line.length) line]⟩, !inCodeBlock)
  else if inCodeBlock then
    (⟨number, [Block.code (0, line.length) line]⟩, inCodeBlock)
  else
    (parseInlineCodeLine number line, inCodeBlock)

/-- `str::split_inclusive('\n')`: the pieces of the input, each keeping its
terminating newline; a last piece without newline is kept as well. -/
def splitInclusive : Str → List Str
  | [] => []
  | c :: rest =>
    if c = '\n' then [c] :: splitInclusive rest
    else
      match splitInclusive rest with
      | [] => [[c]]
      | p :: ps => (c :: p) :: ps

/-- Removal of the trailing `'\n'` done by `MarkdownParser::parse`. -/
def stripNewline (l : Str) : Str :=
  if l.getLast? = some '\n' then l.dropLast else l

def mdLines : List Str → Nat → Bool → List Line
  | [], _, _ => []
  | p :: ps, n, inCB =>
    let r := parseMdLine n (stripNewline p) inCB
    r.1 :: mdLines ps (n + 1) r.2

/-- `MarkdownParser::parse` (trait `Parser`). -/
def MarkdownParser.parse (input : Str) : Document :=
  ⟨mdLines (splitInclusive input) 1 false⟩

/-- `str::lines` strips a trailing `"\n"` or `"\r\n"` from each piece. -/
def rustLineStrip (l : Str) : Str :=
  if l.getLast? = some '\n' then
    let l' := l.dropLast
    if l'.getLast? = some '\r' then l'.dropLast else l'
  else l

def rustLines (input : Str) : List Str :=
  (splitInclusive input).map rustLineStrip

/-- `PlainParser::parse`: every line is a single whole-line code span. -/
def PlainParser.parse (input : Str) : Document :=
  ⟨(rustLines input).enum.map fun p =>
    ⟨p.1 + 1, [Block.code (0, p.2.length) p.2]⟩⟩

/-! ## Line grammar (`src/lang/mod.rs`) -/

/-- `str::trim` (both ends). -/
def trimLeft (s : Str) : Str := s.dropWhile Char.isWhitespace

def trimRight (s : Str) : Str := (s.reverse.dropWhile Char.isWhitespace).reverse

def trim (s : Str) : Str := trimRight (trimLeft s)

/-- Boolean substring-prefix test used by `findSub`. -/
def isPre : Str → Str → Bool
  | [], _ => true
  | _ :: _, [] => false
  | a :: as, b :: bs => a = b && isPre as bs

/-- `str::find(pattern)`: index of the first occurrence of `pat` in `hay`. -/
def findSub : Str → Str → Option Nat
  | [], pat => if pat = [] then some 0 else none
  | c :: t, pat =>
    if isPre pat (c :: t) then some 0
    else (findSub t pat).map (· + 1)

/-- `pat` occurs somewhere in `s`. -/
def occursIn (pat s : Str) : Prop := findSub s pat ≠ none

instance (pat s : Str) : Decidable (occursIn pat s) := by
  unfold occursIn; infer_instance

/-- `CodeLine` of `src/lang/mod.rs` (borrowed strings become owned lists).
`eval` and `evalAssignment` carry code, marker, prior result and comment;
`evalAssignment` additionally carries the bound variable first. -/
inductive CodeLine where
  | code : Str → CodeLine
  | eval : Str → Str → Option Str → Option Str → CodeLine
  | evalAssignment : Str → Str → Str → Option Str → Option Str → CodeLine
deriving DecidableEq

def CodeLine.result : CodeLine → Option Str
  | .code _ => none
  | .eval _ _ r _ => r
  | .evalAssignment _ _ _ r _ => r

/-- `CodeLine::reconstruct`. -/
def CodeLine.reconstruct : CodeLine → Str → Str
  | .code c, _ => c
  | .eval c m _ cmt, result =>
    let out := c ++ [' '] ++ m ++ [' '] ++ result
    (match cmt with
      | some cm => out ++ [' '] ++ trim cm
      | none => out)
  | .evalAssignment _ c m _ cmt, result =>
    let out := c ++ [' '] ++ m ++ [' '] ++ result
    (match cmt with
      | some cm => out ++ [' '] ++ trim cm
      | none => out)

/-- `split_line`. -/
def splitLine (input marker comment : Str) (extractAssignment : Str → Option Str) : CodeLine :=
  let trimmed := trim input
  match findSub trimmed marker with
  | some markerPos =>
    let beforeMarker := trimmed.take markerPos
    let afterMarker := (trimmed.drop markerPos).drop marker.length
    let rc : Str × Option Str :=
      match findSub afterMarker comment with
      | some cpos => (trim (afterMarker.take cpos), some (afterMarker.drop cpos))
      | none => (trim afterMarker, none)
    let result := if rc.1 = [] then none else some rc.1
    (match extractAssignment (trim beforeMarker) with
      | some var => .evalAssignment var (trim beforeMarker) marker result (rc.2.map trim)
      | none => .eval (trim beforeMarker) marker result (rc.2.map trim))
  | none => .code trimmed

/-- The line parsed as `Eval` or `EvalAssignment` (an evaluable line). -/
def CodeLine.evalLike : CodeLine → Prop
  | .code _ => False
  | .eval _ _ _ _ => True
  | .evalAssignment _ _ _ _ _ => True

instance (c : CodeLine) : Decidable c.evalLike := by
  cases c <;> simp [CodeLine.evalLike] <;> infer_instance

/-- The six-line Markdown document of the spec's Markdown scenario. -/
def input9 : Str :=
  "Text before.\n```python\nx = 1\ny = 2\n```\nInline `2 + 2` works.".toList

/-! ## Indexing lemmas -/

theorem idxFrom_append (n : Nat) (a b : List Str) :
    idxFrom n (a ++ b) = idxFrom n a ++ idxFrom (n + a.length) b := by
  induction a generalizing n with
  | nil => simp [idxFrom]
  | cons c cs ih =>
    have h : n + (c :: cs).length = n + 1 + cs.length := by simp; omega
    simp only [List.cons_append, idxFrom, h, List.append_eq, ih]

theorem idxFrom_length (n : Nat) (l : List Str) : (idxFrom n l).length = l.length := by
  induction l generalizing n <;> simp_all [idxFrom]

theorem idxFrom_map_fst (n : Nat) (l : List Str) :
    (idxFrom n l).map Prod.fst = List.range' n l.length := by
  induction l generalizing n with
  | nil => simp [idxFrom]
  | cons c cs ih => simp [idxFrom, ih, List.range']

theorem idxFrom_map_snd (n : Nat) (l : List Str) :
    (idxFrom n l).map Prod.snd = l := by
  induction l generalizing n <;> simp_all [idxFrom]

theorem idxFrom_nil_iff (n : Nat) (l : List Str) : idxFrom n l = [] ↔ l = [] := by
  cases l <;> simp [idxFrom]

theorem idxFrom_getElem? (n : Nat) (l : List Str) (i : Nat) :
    (idxFrom n l)[i]? = l[i]?.map fun c => (n + i, c) := by
  induction l generalizing n i with
  | nil => simp [idxFrom]
  | cons c cs ih =>
    cases i with
    | zero => simp [idxFrom]
    | succ j =>
      have h : n + (j + 1) = n + 1 + j := by omega
      simp [idxFrom, ih, h]

/-! ## Extraction lemmas -/

@[simp] theorem blocksCode_nil : blocksCode [] = [] := rfl

@[simp] theorem blocksCode_cons_code (r : Nat × Nat) (c : Str) (bs : List Block) :
    blocksCode (Block.code r c :: bs) = c :: blocksCode bs := rfl

@[simp] theorem blocksCode_cons_text (r : Nat × Nat) (t : Str) (bs : List Block) :
    blocksCode (Block.text r t :: bs) = blocksCode bs := rfl

theorem extractBlocks_eq (bs : List Block) (acc : List CodeBlock) :
    extractBlocks bs acc = acc ++ (idxFrom acc.length (blocksCode bs)).map mkCB := by
  induction bs generalizing acc with
  | nil => simp [extractBlocks, idxFrom]
  | cons b bs ih =>
    cases b with
    | text r t => simp [extractBlocks, ih]
    | code r c =>
      rw [extractBlocks, ih]
      simp only [idxFrom, mkCB, List.map_cons, List.append_assoc, List.singleton_append,
        List.length_append, List.length_cons, List.length_nil, blocksCode_cons_code]
      rfl

theorem extractDoc_foldl (ls : List Line) (acc : List CodeBlock) :
    ls.foldl (fun acc l => extractBlocks l.blocks acc) acc =
      acc ++ (idxFrom acc.length ((ls.map fun l => blocksCode l.blocks).flatten)).map mkCB := by
  induction ls generalizing acc with
  | nil => simp [idxFrom]
  | cons l ls ih =>
    simp only [List.foldl_cons, List.map_cons, List.flatten_cons]
    rw [extractBlocks_eq, ih, idxFrom_append]
    simp [idxFrom_length]

theorem extractDoc_eq (d : Document) :
    extractDoc d = (idxFrom 0 (codeContents d)).map mkCB := by
  simpa [extractDoc, codeContents] using extractDoc_foldl d.lines []

theorem extractDoc_nil_iff (d : Document) : extractDoc d = [] ↔ codeContents d = [] := by
  rw [extractDoc_eq]
  simp [idxFrom_nil_iff]

/-! ## Merge lemmas -/

theorem mergeBlocks_snd (upd : Nat → Option Str) (bs : List Block) (i : Nat) :
    (mergeBlocks upd bs i).2 = i + (blocksCode bs).length := by
  induction bs generalizing i with
  | nil => simp [mergeBlocks]
  | cons b bs ih =>
    cases b with
    | text r t => simp [mergeBlocks, ih]
    | code r c => simp [mergeBlocks, ih]; omega

theorem mergeBlocks_shape (upd : Nat → Option Str) (bs : List Block) (i : Nat) :
    (mergeBlocks upd bs i).1.map Block.eraseCodeContent = bs.map Block.eraseCodeContent := by
  induction bs generalizing i with
  | nil => simp [mergeBlocks]
  | cons b bs ih => cases b <;> simp [mergeBlocks, ih, Block.eraseCodeContent]

theorem mergeBlocks_code (upd : Nat → Option Str) (bs : List Block) (i : Nat) :
    blocksCode (mergeBlocks upd bs i).1 =
      (idxFrom i (blocksCode bs)).map fun p => (upd p.1).getD p.2 := by
  induction bs generalizing i with
  | nil => simp [mergeBlocks, idxFrom]
  | cons b bs ih =>
    cases b with
    | text r t => simp [mergeBlocks, ih]
    | code r c =>
      simp only [mergeBlocks, blocksCode_cons_code, idxFrom, List.map_cons, ih]
      cases upd i <;> (simp; try rfl)

theorem mergeLines_shape (upd : Nat → Option Str) (ls : List Line) (i : Nat) :
    (mergeLines upd ls i).map Line.shape = ls.map Line.shape := by
  induction ls generalizing i with
  | nil => simp [mergeLines]
  | cons l ls ih => simp [mergeLines, Line.shape, mergeBlocks_shape, ih]

theorem mergeLines_code (upd : Nat → Option Str) (ls : List Line) (i : Nat) :
    ((mergeLines upd ls i).map fun l => blocksCode l.blocks).flatten =
      (idxFrom i ((ls.map fun l => blocksCode l.blocks).flatten)).map
        fun p => (upd p.1).getD p.2 := by
  induction ls generalizing i with
  | nil => simp [mergeLines, idxFrom]
  | cons l ls ih =>
    simp only [mergeLines, List.map_cons, List.flatten_cons, idxFrom_append, List.map_append]
    rw [mergeBlocks_code, ih, mergeBlocks_snd]

theorem codeContents_evaluateWith (d : Document) (f : List CodeBlock → List CodeBlockUpdate) :
    codeContents (d.evaluateWith f) =
      (idxFrom 0 (codeContents d)).map
        fun p => (lookupUpdate (f (extractDoc d)) p.1).getD p.2 := by
  by_cases h : (extractDoc d).isEmpty
  · have h0 : codeContents d = [] := by
      rw [← extractDoc_nil_iff]
      exact List.isEmpty_iff.mp h
    simp [Document.evaluateWith, h, h0, idxFrom]
  · simp only [Document.evaluateWith, h, Bool.false_eq_true, if_false]
    exact mergeLines_code _ d.lines 0

theorem lookupUpdate_eq_none (us : List CodeBlockUpdate) (i : Nat)
    (h : ∀ u ∈ us, u.id ≠ i) : lookupUpdate us i = none := by
  unfold lookupUpdate
  rw [List.find?_eq_none.mpr]
  · rfl
  · intro u hu
    simpa using h u (List.mem_reverse.mp hu)

/-! ## Claim C4 -/

/-- C4: for a document with N code spans, the extraction phase of
`Document::evaluate_with` produces exactly the views with ids `0, …, N-1` in
traversal order, the i-th view's content being the i-th code span's content. -/
theorem extraction_ids_dense_ordered (d : Document) :
    (extractDoc d).map CodeBlock.id = List.range (codeContents d).length ∧
    (extractDoc d).map CodeBlock.content = codeContents d := by
  rw [extractDoc_eq]
  constructor
  · rw [List.map_map]
    have h : (CodeBlock.id ∘ mkCB) = Prod.fst := rfl
    rw [h, idxFrom_map_fst, List.range_eq_range']
  · rw [List.map_map]
    have h : (CodeBlock.content ∘ mkCB) = Prod.snd := rfl
    rw [h, idxFrom_map_snd]

/-! ## Claim C5 -/

/-- C5: a document with zero code spans is returned unchanged by
`evaluate_with`, and the result does not depend on the evaluator at all
(the evaluator is never invoked: the early return fires before the call). -/
theorem skip_on_empty (d : Document) (f g : List CodeBlock → List CodeBlockUpdate)
    (h : codeContents d = []) :
    d.evaluateWith f = d ∧ d.evaluateWith f = d.evaluateWith g := by
  have he : (extractDoc d).isEmpty = true := by
    rw [List.isEmpty_iff, extractDoc_nil_iff]
    exact h
  constructor <;> simp [Document.evaluateWith, he]

theorem skip_on_empty_witness :
    Document.evaluateWith ⟨[⟨1, [Block.text (0, 4) "text".toList]⟩]⟩
        (fun _ => [⟨0, "z".toList⟩]) =
      ⟨[⟨1, [Block.text (0, 4) "text".toList]⟩]⟩ :=
  (skip_on_empty ⟨[⟨1, [Block.text (0, 4) "text".toList]⟩]⟩
    (fun _ => [⟨0, "z".toList⟩]) (fun _ => []) (by decide)).1

/-! ## Claim C3 -/

/-- C3: `evaluate_with` changes nothing but code-span contents: line count and
order, line numbers, span count and order, span ranges and text-span contents
are all preserved. -/
theorem evaluate_frame (d : Document) (f : List CodeBlock → List CodeBlockUpdate) :
    (d.evaluateWith f).lines.map Line.shape = d.lines.map Line.shape := by
  by_cases h : (extractDoc d).isEmpty <;>
    simp [Document.evaluateWith, h, mergeLines_shape]

/-! ## Claim C2 -/

/-- C2: after `evaluate_with`, a code span whose id carries an update holds the
supplied content (the effective content of the update map), and a code span
whose id appears in no update keeps its pre-merge content. -/
theorem merge_partial_update (d : Document) (f : List CodeBlock → List CodeBlockUpdate)
    (i : Nat) (h : i < (codeContents d).length) :
    ((∀ u ∈ f (extractDoc d), u.id ≠ i) →
        (codeContents (d.evaluateWith f))[i]? = (codeContents d)[i]?) ∧
    ∀ c, lookupUpdate (f (extractDoc d)) i = some c →
        (codeContents (d.evaluateWith f))[i]? = some c := by
  have key : (codeContents (d.evaluateWith f))[i]? =
      some ((lookupUpdate (f (extractDoc d)) i).getD ((codeContents d).get ⟨i, h⟩)) := by
    rw [codeContents_evaluateWith, List.getElem?_map, idxFrom_getElem?,
      List.getElem?_eq_getElem h]
    simp
  constructor
  · intro hn
    rw [key, lookupUpdate_eq_none _ _ hn, List.getElem?_eq_getElem h]
    simp
  · intro c hc
    rw [key, hc]
    simp

theorem merge_partial_update_witness :
    (codeContents (Document.evaluateWith
        ⟨[⟨1, [Block.code (0, 3) "a=1".toList]⟩, ⟨2, [Block.code (0, 3) "a+1".toList]⟩]⟩
        (fun _ => [⟨1, "a+1 #= 2".toList⟩])))[0]? =
      (codeContents
        ⟨[⟨1, [Block.code (0, 3) "a=1".toList]⟩, ⟨2, [Block.code (0, 3) "a+1".toList]⟩]⟩)[0]? :=
  (merge_partial_update
    ⟨[⟨1, [Block.code (0, 3) "a=1".toList]⟩, ⟨2, [Block.code (0, 3) "a+1".toList]⟩]⟩
    (fun _ => [⟨1, "a+1 #= 2".toList⟩]) 0 (by decide)).1 (by decide)

/-! ## Claim C10 -/

/-- C10: when the evaluator returns several updates with the same id, the last
one in the returned sequence is applied (later `HashMap::insert`s overwrite
earlier ones); earlier duplicates are discarded without error. -/
theorem duplicate_updates_last_wins (d : Document) (f : List CodeBlock → List CodeBlockUpdate)
    (i : Nat) (u : CodeBlockUpdate) (h : i < (codeContents d).length)
    (hu : (f (extractDoc d)).reverse.find? (fun x => x.id = i) = some u) :
    (codeContents (d.evaluateWith f))[i]? = some u.content := by
  rw [codeContents_evaluateWith, List.getElem?_map, idxFrom_getElem?,
    List.getElem?_eq_getElem h]
  simp [lookupUpdate, hu]

theorem duplicate_updates_last_wins_witness :
    (codeContents (Document.evaluateWith ⟨[⟨1, [Block.code (0, 1) "x".toList]⟩]⟩
        (fun _ => [⟨0, "a".toList⟩, ⟨0, "b".toList⟩])))[0]? = some "b".toList :=
  duplicate_updates_last_wins ⟨[⟨1, [Block.code (0, 1) "x".toList]⟩]⟩
    (fun _ => [⟨0, "a".toList⟩, ⟨0, "b".toList⟩]) 0 ⟨0, "b".toList⟩
    (by decide) (by decide)

/-! ## Scanner invariant -/

theorem nonEmptyBlock_iff (b : Block) : nonEmptyBlock b = true ↔ b.content ≠ [] := by
  simp [nonEmptyBlock]

theorem sorted_append_singleton {l : List Block} {x : Block}
    (hs : List.Sorted blockLe l) (hx : ∀ b ∈ l, blockLe b x) :
    List.Sorted blockLe (l ++ [x]) := by
  show List.Pairwise blockLe (l ++ [x])
  rw [List.pairwise_append]
  refine ⟨hs, List.pairwise_singleton _ _, ?_⟩
  intro a ha b hb
  rw [List.mem_singleton] at hb
  subst hb
  exact hx a ha

theorem push_block_sorted {bs : List Block} {x : Block} {fl : Nat}
    (hsort : List.Sorted blockLe (bs.filter nonEmptyBlock))
    (hfloor : ∀ b ∈ bs, b.content ≠ [] → b.start ≤ fl)
    (hx : fl ≤ x.start) :
    List.Sorted blockLe ((bs ++ [x]).filter nonEmptyBlock) := by
  rw [List.filter_append]
  by_cases hxe : nonEmptyBlock x = true
  · rw [List.filter_cons_of_pos hxe, List.filter_nil]
    refine sorted_append_singleton hsort ?_
    intro b hb
    have hbm := List.mem_filter.mp hb
    exact Nat.le_trans (hfloor b hbm.1 ((nonEmptyBlock_iff b).mp hbm.2)) hx
  · rw [List.filter_cons_of_neg (by simpa using hxe), List.filter_nil, List.append_nil]
    exact hsort

theorem push_block_floor {bs : List Block} {x : Block} {fl fl' : Nat}
    (hfloor : ∀ b ∈ bs, b.content ≠ [] → b.start ≤ fl)
    (hle : fl ≤ fl') (hx : x.content ≠ [] → x.start ≤ fl') :
    ∀ b ∈ bs ++ [x], b.content ≠ [] → b.start ≤ fl' := by
  intro b hb hbne
  rcases List.mem_append.mp hb with h | h
  · exact Nat.le_trans (hfloor b h hbne) hle
  · rw [List.mem_singleton] at h
    subst h
    exact hx hbne

theorem scanChar_inv (s : ScanState) (consumed : Str) (ch : Char)
    (h : ScanInv s consumed) : ScanInv (scanChar s ch) (consumed ++ [ch]) := by
  obtain ⟨bs, tb, cb, ins, col⟩ := s
  obtain ⟨hcat, hcol, htb, hcb, hsort, hfloor⟩ := h
  dsimp only at hcat hcol htb hcb hsort hfloor
  by_cases hch : ch = tick
  · subst hch
    cases ins with
    | true =>
      have htb0 : tb = [] := htb rfl
      subst htb0
      simp only [List.append_nil] at hcat
      have hstep : scanChar ⟨bs, [], cb, true, col⟩ tick =
          ⟨bs ++ [Block.code (col - cb.length, col) cb], [tick], [], false, col + 1⟩ := by
        simp [scanChar]
      rw [hstep]
      refine ⟨?_, ?_, ?_, ?_, ?_, ?_⟩
      · rw [← hcat]
        simp [Block.content, List.append_assoc]
      · simp [hcol]
      · simp
      · simp
      · refine push_block_sorted hsort hfloor ?_
        simp only [scanFloor, Block.start, if_pos]
        omega
      · refine push_block_floor hfloor ?_ ?_
        · simp only [scanFloor, if_pos, if_neg Bool.false_ne_true]
          simp only [List.length_cons, List.length_nil]
          omega
        · intro hne
          have hpos := List.length_pos.mpr hne
          simp only [Block.content] at hpos
          simp only [scanFloor, Block.start, if_neg Bool.false_ne_true]
          simp only [List.length_cons, List.length_nil]
          omega
    | false =>
      have hcb0 : cb = [] := hcb rfl
      subst hcb0
      simp only [List.append_nil] at hcat
      have hstep : scanChar ⟨bs, tb, [], false, col⟩ tick =
          ⟨bs ++ [Block.text (col - (tb.length + 1), col) (tb ++ [tick])], [], [], true,
            col + 1⟩ := by
        simp [scanChar]
      rw [hstep]
      refine ⟨?_, ?_, ?_, ?_, ?_, ?_⟩
      · rw [← hcat]
        simp [Block.content, List.append_assoc]
      · simp [hcol]
      · simp
      · simp
      · refine push_block_sorted hsort hfloor ?_
        simp only [scanFloor, Block.start, if_neg Bool.false_ne_true]
        omega
      · refine push_block_floor hfloor ?_ ?_
        · simp only [scanFloor, if_pos, if_neg Bool.false_ne_true]
          simp only [List.length_nil]
          omega
        · intro _
          simp only [scanFloor, Block.start, if_pos]
          simp only [List.length_nil]
          omega
  · cases ins with
    | true =>
      have htb0 : tb = [] := htb rfl
      subst htb0
      simp only [List.append_nil] at hcat
      have hstep : scanChar ⟨bs, [], cb, true, col⟩ ch =
          ⟨bs, [], cb ++ [ch], true, col + 1⟩ := by
        simp [scanChar, hch]
      rw [hstep]
      refine ⟨?_, ?_, ?_, ?_, ?_, ?_⟩
      · rw [← hcat]
        simp [List.append_assoc]
      · simp [hcol]
      · simp
      · simp
      · exact hsort
      · intro b hb hbne
        have hb1 := hfloor b hb hbne
        simp only [scanFloor, if_pos] at hb1 ⊢
        simp only [List.length_append, List.length_cons, List.length_nil]
        omega
    | false =>
      have hcb0 : cb = [] := hcb rfl
      subst hcb0
      simp only [List.append_nil] at hcat
      have hstep : scanChar ⟨bs, tb, [], false, col⟩ ch =
          ⟨bs, tb ++ [ch], [], false, col + 1⟩ := by
        simp [scanChar, hch]
      rw [hstep]
      refine ⟨?_, ?_, ?_, ?_, ?_, ?_⟩
      · rw [← hcat]
        simp [List.append_assoc]
      · simp [hcol]
      · simp
      · simp
      · exact hsort
      · intro b hb hbne
        have hb1 := hfloor b hb hbne
        simp only [scanFloor, if_neg Bool.false_ne_true] at hb1 ⊢
        simp only [List.length_append, List.length_cons, List.length_nil]
        omega

theorem scanInv_init : ScanInv initState [] := by
  refine ⟨rfl, rfl, ?_, ?_, ?_, ?_⟩ <;> simp [initState, scanFloor]

theorem scan_foldl_inv (line : Str) (s : ScanState) (consumed : Str)
    (h : ScanInv s consumed) : ScanInv (line.foldl scanChar s) (consumed ++ line) := by
  induction line generalizing s consumed with
  | nil => simpa using h
  | cons c cs ih =>
    have h2 := ih (scanChar s c) (consumed ++ [c]) (scanChar_inv s consumed c h)
    simpa [List.append_assoc] using h2

theorem scan_line_inv (line : Str) : ScanInv (line.foldl scanChar initState) line := by
  simpa using scan_foldl_inv line initState [] scanInv_init

/-! ## Claim C8 -/

/-- C8: a non-fence line scanned outside a fenced block whose scan ends with
`inside_inline_code` still true collapses into a single Text span holding the
whole original line. -/
theorem unterminated_inline_single_text (n : Nat) (line : Str)
    (hf : isFence line = false)
    (h : (line.foldl scanChar initState).insideInline = true) :
    (parseMdLine n line false).1.blocks = [Block.text (0, line.length) line] := by
  obtain ⟨hcat, hcol, htb, hcb, hsort, hfloor⟩ := scan_line_inv line
  simp only [parseMdLine, hf, Bool.false_eq_true, if_false]
  rw [parseInlineCodeLine, flushInlineBuffers, if_pos h]
  have hfull : ((line.foldl scanChar initState).blocks.map Block.content).flatten ++
      (line.foldl scanChar initState).textBuf ++ (line.foldl scanChar initState).codeBuf =
      line := hcat
  simp only [hfull]

theorem unterminated_inline_single_text_witness :
    (parseMdLine 1 "This `never closes".toList false).1.blocks =
      [Block.text (0, "This `never closes".toList.length) "This `never closes".toList] :=
  unterminated_inline_single_text 1 "This `never closes".toList (by decide) (by decide)

/-! ## Stable sorting preserves concatenation when the non-empty blocks are
already in order -/

theorem flatten_map_orderedInsert_empty (a : Block) (l : List Block)
    (ha : a.content = []) :
    ((List.orderedInsert blockLe a l).map Block.content).flatten =
      (l.map Block.content).flatten := by
  induction l with
  | nil => simp [List.orderedInsert, ha]
  | cons b t ih =>
    rw [List.orderedInsert]
    split_ifs with h
    · simp [ha]
    · simp only [List.map_cons, List.flatten_cons, ih]

theorem flatten_map_orderedInsert_skip (a : Block) (l : List Block)
    (hl : ∀ b ∈ l, ¬ blockLe a b → b.content = []) :
    ((List.orderedInsert blockLe a l).map Block.content).flatten =
      a.content ++ (l.map Block.content).flatten := by
  induction l with
  | nil => simp [List.orderedInsert]
  | cons b t ih =>
    rw [List.orderedInsert]
    split_ifs with h
    · simp
    · have hb : b.content = [] := hl b (List.mem_cons_self b t) h
      have ih2 := ih fun x hx hx2 => hl x (List.mem_cons_of_mem b hx) hx2
      simp [hb, ih2]

theorem flatten_insertionSort_of_filter_sorted (l : List Block)
    (h : List.Sorted blockLe (l.filter nonEmptyBlock)) :
    ((List.insertionSort blockLe l).map Block.content).flatten =
      (l.map Block.content).flatten := by
  induction l with
  | nil => simp [List.insertionSort]
  | cons a t ih =>
    rw [List.insertionSort]
    by_cases ha : a.content = []
    · rw [flatten_map_orderedInsert_empty a _ ha]
      have hf : (a :: t).filter nonEmptyBlock = t.filter nonEmptyBlock := by
        rw [List.filter_cons_of_neg]
        simp [nonEmptyBlock, ha]
      rw [hf] at h
      rw [ih h]
      simp [ha]
    · have hf : (a :: t).filter nonEmptyBlock = a :: t.filter nonEmptyBlock := by
        rw [List.filter_cons_of_pos ((nonEmptyBlock_iff a).mpr ha)]
      rw [hf] at h
      have hrel := List.rel_of_sorted_cons h
      have hskip : ∀ b ∈ List.insertionSort blockLe t, ¬ blockLe a b → b.content = [] := by
        intro b hb hnle
        by_contra hbne
        exact hnle (hrel b (List.mem_filter.mpr
          ⟨(List.mem_insertionSort blockLe).mp hb, (nonEmptyBlock_iff b).mpr hbne⟩))
      rw [flatten_map_orderedInsert_skip a _ hskip, ih h.of_cons]
      simp

theorem reconstructLine_of_filter_sorted (n : Nat) (bs : List Block)
    (h : List.Sorted blockLe (bs.filter nonEmptyBlock)) :
    reconstructLine ⟨n, bs⟩ = (bs.map Block.content).flatten :=
  flatten_insertionSort_of_filter_sorted bs h

/-! ## Per-line round trip of the Markdown scanner -/

theorem parseInlineCodeLine_reconstruct (n : Nat) (line : Str) :
    reconstructLine (parseInlineCodeLine n line) = line := by
  obtain ⟨hcat, hcol, htb, hcb, hsort, hfloor⟩ := scan_line_inv line
  rw [parseInlineCodeLine, flushInlineBuffers]
  by_cases hin : (line.foldl scanChar initState).insideInline = true
  · rw [if_pos hin]
    rw [reconstructLine_of_filter_sorted]
    · simp only [List.map_cons, List.map_nil, List.flatten_cons, List.flatten_nil,
        Block.content, List.append_nil]
      exact hcat
    · simp only [List.filter_cons, List.filter_nil]
      split_ifs <;> simp
  · rw [if_neg hin]
    have hfalse : (line.foldl scanChar initState).insideInline = false := by
      revert hin
      cases (line.foldl scanChar initState).insideInline <;> simp
    have hcb0 : (line.foldl scanChar initState).codeBuf = [] := hcb hfalse
    by_cases htb0 : (line.foldl scanChar initState).textBuf = []
    · rw [if_pos htb0]
      rw [reconstructLine_of_filter_sorted _ _ hsort]
      have h2 := hcat
      rw [htb0, hcb0, List.append_nil, List.append_nil] at h2
      exact h2
    · rw [if_neg htb0]
      have hx : scanFloor (line.foldl scanChar initState) ≤
          (Block.text ((line.foldl scanChar initState).col -
            (line.foldl scanChar initState).textBuf.length,
            (line.foldl scanChar initState).col)
            (line.foldl scanChar initState).textBuf).start := by
        simp only [scanFloor, hfalse, Block.start, if_neg Bool.false_ne_true]
        omega
      rw [reconstructLine_of_filter_sorted _ _ (push_block_sorted hsort hfloor hx)]
      simp only [List.map_append, List.map_cons, List.map_nil, List.flatten_append,
        List.flatten_cons, List.flatten_nil, Block.content, List.append_nil]
      have h2 := hcat
      rw [hcb0, List.append_nil] at h2
      exact h2

theorem parseMdLine_reconstruct (n : Nat) (line : Str) (b : Bool) :
    reconstructLine (parseMdLine n line b).1 = line := by
  rw [parseMdLine]
  split_ifs with h1 h2
  · simp [reconstructLine, List.insertionSort, List.orderedInsert, Block.content]
  · simp [reconstructLine, List.insertionSort, List.orderedInsert, Block.content]
  · exact parseInlineCodeLine_reconstruct n line

/-! ## Splitting into lines and joining them back -/

theorem splitInclusive_nil_iff (s : Str) : splitInclusive s = [] ↔ s = [] := by
  cases s with
  | nil => simp [splitInclusive]
  | cons c t =>
    simp only [splitInclusive]
    split_ifs
    · simp
    · cases hsi : splitInclusive t <;> simp

theorem splitInclusive_flatten (s : Str) : (splitInclusive s).flatten = s := by
  induction s with
  | nil => simp [splitInclusive]
  | cons c t ih =>
    simp only [splitInclusive]
    split_ifs with h
    · simp only [List.flatten_cons, List.singleton_append, ih]
    · cases hsi : splitInclusive t with
      | nil =>
        have ht : t = [] := (splitInclusive_nil_iff t).mp hsi
        subst ht
        simp
      | cons q qs =>
        rw [← ih, hsi]
        simp

theorem splitInclusive_mem_ne_nil (s : Str) : ∀ p ∈ splitInclusive s, p ≠ [] := by
  induction s with
  | nil => simp [splitInclusive]
  | cons c t ih =>
    simp only [splitInclusive]
    split_ifs with h
    · intro p hp
      rcases List.mem_cons.mp hp with h1 | h1
      · subst h1; simp
      · exact ih p h1
    · cases hsi : splitInclusive t with
      | nil =>
        intro p hp
        rw [List.mem_singleton] at hp
        subst hp
        simp
      | cons q qs =>
        intro p hp
        rcases List.mem_cons.mp hp with h1 | h1
        · subst h1; simp
        · exact ih p (hsi ▸ List.mem_cons_of_mem q h1)

theorem stripNewline_cons₂ (c q : Char) (qs : Str) :
    stripNewline (c :: q :: qs) = c :: stripNewline (q :: qs) := by
  rw [stripNewline, stripNewline, List.getLast?_cons_cons]
  split_ifs with h
  · simp [List.dropLast]
  · rfl

theorem intercalate_cons_cons (sep x y : Str) (zs : List Str) :
    List.intercalate sep (x :: y :: zs) = x ++ sep ++ List.intercalate sep (y :: zs) := by
  simp [List.intercalate, List.append_assoc]

theorem intercalate_head_cons (sep : Str) (c : Char) (x : Str) (xs : List Str) :
    List.intercalate sep ((c :: x) :: xs) = c :: List.intercalate sep (x :: xs) := by
  cases xs with
  | nil => simp [List.intercalate]
  | cons y ys =>
    rw [intercalate_cons_cons, intercalate_cons_cons]
    simp

theorem intercalate_stripNewline (input : Str) (h : input.getLast? ≠ some '\n') :
    List.intercalate ['\n'] ((splitInclusive input).map stripNewline) = input := by
  induction input with
  | nil => simp [splitInclusive, List.intercalate]
  | cons c rest ih =>
    by_cases hc : c = '\n'
    · subst hc
      have hrne : rest ≠ [] := by
        intro he
        subst he
        simp [List.getLast?] at h
      obtain ⟨q, qs, hq⟩ := List.exists_cons_of_ne_nil hrne
      have hrest : rest.getLast? ≠ some '\n' := by
        subst hq
        rw [List.getLast?_cons_cons] at h
        exact h
      have hsplit : splitInclusive ('\n' :: rest) = ['\n'] :: splitInclusive rest := by
        simp [splitInclusive]
      cases hsi : splitInclusive rest with
      | nil => exact absurd ((splitInclusive_nil_iff rest).mp hsi) hrne
      | cons p ps =>
        rw [hsplit, hsi, List.map_cons, List.map_cons]
        have hone : stripNewline ['\n'] = [] := rfl
        rw [hone, intercalate_cons_cons, List.nil_append, ← List.map_cons, ← hsi,
          ih hrest]
        rfl
    · cases hsi : splitInclusive rest with
      | nil =>
        have ht : rest = [] := (splitInclusive_nil_iff rest).mp hsi
        subst ht
        have hsplit : splitInclusive [c] = [[c]] := by
          simp [splitInclusive, hc]
        rw [hsplit, List.map_singleton]
        have hstrip : stripNewline [c] = [c] := by
          simp [stripNewline, List.getLast?, hc]
        rw [hstrip]
        simp [List.intercalate]
      | cons p ps =>
        have hrne : rest ≠ [] := by
          intro he
          subst he
          simp [splitInclusive] at hsi
        have hrest : rest.getLast? ≠ some '\n' := by
          obtain ⟨q, qs, hq⟩ := List.exists_cons_of_ne_nil hrne
          subst hq
          rw [List.getLast?_cons_cons] at h
          exact h
        have hp : p ≠ [] :=
          splitInclusive_mem_ne_nil rest p (hsi ▸ List.mem_cons_self p ps)
        obtain ⟨q, qs, hq⟩ := List.exists_cons_of_ne_nil hp
        have hsplit : splitInclusive (c :: rest) = (c :: p) :: ps := by
          rw [splitInclusive]
          simp only [if_neg hc, hsi]
        rw [hsplit, List.map_cons, hq, stripNewline_cons₂, ← hq, intercalate_head_cons,
          ← List.map_cons, ← hsi, ih hrest]

/-! ## Document-level round trips -/

theorem mdLines_reconstruct (ps : List Str) (n : Nat) (b : Bool) :
    (mdLines ps n b).map reconstructLine = ps.map stripNewline := by
  induction ps generalizing n b with
  | nil => simp [mdLines]
  | cons p ps ih =>
    simp only [mdLines, List.map_cons, parseMdLine_reconstruct, ih]

theorem markdown_roundtrip (input : Str) (h : input.getLast? ≠ some '\n') :
    Document.reconstruct (MarkdownParser.parse input) = input := by
  rw [Document.reconstruct, MarkdownParser.parse]
  show List.intercalate ['\n']
    ((mdLines (splitInclusive input) 1 false).map reconstructLine) = input
  rw [mdLines_reconstruct, intercalate_stripNewline input h]

theorem rustLineStrip_eq_stripNewline (p : Str) (h : '\r' ∉ p) :
    rustLineStrip p = stripNewline p := by
  rw [rustLineStrip, stripNewline]
  split_ifs with h1
  · rw [if_neg]
    intro hr
    exact h ((List.dropLast_sublist p).subset (List.mem_of_mem_getLast? hr))
  · rfl

theorem plain_roundtrip (input : Str) (h : input.getLast? ≠ some '\n')
    (h2 : '\r' ∉ input) :
    Document.reconstruct (PlainParser.parse input) = input := by
  rw [Document.reconstruct, PlainParser.parse]
  show List.intercalate ['\n'] (((rustLines input).enum.map fun p =>
    (⟨p.1 + 1, [Block.code (0, p.2.length) p.2]⟩ : Line)).map reconstructLine) = input
  rw [List.map_map]
  have hf : (reconstructLine ∘ fun p : Nat × Str =>
      (⟨p.1 + 1, [Block.code (0, p.2.length) p.2]⟩ : Line)) = Prod.snd := by
    funext p
    simp [reconstructLine, List.insertionSort, List.orderedInsert, Block.content]
  rw [hf, List.enum_map_snd, rustLines]
  have hcong : (splitInclusive input).map rustLineStrip =
      (splitInclusive input).map stripNewline := by
    refine List.map_congr_left ?_
    intro p hp
    refine rustLineStrip_eq_stripNewline p ?_
    intro hrp
    refine h2 ?_
    have hfl := splitInclusive_flatten input
    exact hfl ▸ List.mem_flatten.mpr ⟨p, hp, hrp⟩
  rw [hcong, intercalate_stripNewline input h]

/-! ## Claim C1 -/

/-- C1 as stated is false: both parsers drop a trailing newline.  The input
`"a\n"` contains no evaluation marker, yet both round trips return `"a"`. -/
theorem roundtrip_counterexample :
    ¬ occursIn "#=".toList "a\n".toList ∧
    Document.reconstruct (PlainParser.parse "a\n".toList) ≠ "a\n".toList ∧
    Document.reconstruct (MarkdownParser.parse "a\n".toList) ≠ "a\n".toList := by
  decide

/-- C1 amended: for every input text that does not end with a newline and
contains no carriage-return characters, parsing and reconstructing returns the
input exactly, for both scanning strategies (no condition on evaluation
markers is needed: the scanners never inspect them). -/
theorem roundtrip_no_trailing_newline (input : Str)
    (h1 : input.getLast? ≠ some '\n') (h2 : '\r' ∉ input) :
    Document.reconstruct (PlainParser.parse input) = input ∧
    Document.reconstruct (MarkdownParser.parse input) = input :=
  ⟨plain_roundtrip input h1 h2, markdown_roundtrip input h1⟩

theorem roundtrip_no_trailing_newline_witness :
    Document.reconstruct (PlainParser.parse "x`y\na".toList) = "x`y\na".toList ∧
    Document.reconstruct (MarkdownParser.parse "x`y\na".toList) = "x`y\na".toList :=
  roundtrip_no_trailing_newline "x`y\na".toList (by decide) (by decide)

/-! ## Claim C9 -/

/-- C9: scanning the six-line Markdown scenario yields a Text line, a fence
Text line, two Code lines, a fence Text line, and a final line with spans
Text `"Inline `"`, Code `"2 + 2"`, Text `"` works."`; reconstruction
reproduces the input exactly. -/
theorem markdown_scenario :
    (MarkdownParser.parse input9).lines.map (fun l => l.blocks.map fun b =>
      (b.isCode, b.content)) =
      [[(false, "Text before.".toList)], [(false, "```python".toList)],
        [(true, "x = 1".toList)], [(true, "y = 2".toList)], [(false, "```".toList)],
        [(false, "Inline `".toList), (true, "2 + 2".toList), (false, "` works.".toList)]] ∧
    Document.reconstruct (MarkdownParser.parse input9) = input9 := by
  decide

/-! ## Substring search lemmas -/

theorem findSub_none_iff (s pat : Str) :
    findSub s pat = none ↔ ∀ i, ¬ isPre pat (List.drop i s) = true := by
  induction s with
  | nil =>
    cases pat with
    | nil => simp [findSub, isPre]
    | cons a as => simp [findSub, isPre, List.drop_nil]
  | cons c t ih =>
    rw [findSub]
    split_ifs with hpre
    · constructor
      · intro h
        cases h
      · intro h
        exact absurd hpre (by simpa using h 0)
    · rw [Option.map_eq_none', ih]
      constructor
      · intro h i
        cases i with
        | zero => simpa using hpre
        | succ j => simpa [List.drop_succ_cons] using h j
      · intro h j
        simpa [List.drop_succ_cons] using h (j + 1)

theorem occursIn_exists (pat s : Str) :
    occursIn pat s ↔ ∃ i, isPre pat (List.drop i s) = true := by
  unfold occursIn
  constructor
  · intro h
    by_contra hn
    push_neg at hn
    exact h ((findSub_none_iff s pat).mpr fun i => by simpa using hn i)
  · rintro ⟨i, hi⟩ hn
    exact ((findSub_none_iff s pat).mp hn i) hi

theorem isPre_append_right (pat x t : Str) (h : isPre pat x = true) :
    isPre pat (x ++ t) = true := by
  induction pat generalizing x with
  | nil => simp [isPre]
  | cons a as ih =>
    cases x with
    | nil => simp [isPre] at h
    | cons b bs =>
      simp only [isPre, List.cons_append, Bool.and_eq_true, decide_eq_true_eq] at h ⊢
      exact ⟨h.1, ih bs h.2⟩

theorem occursIn_of_infix (pat s a b : Str) (h : occursIn pat s) :
    occursIn pat (a ++ (s ++ b)) := by
  by_cases hpl : pat = []
  · subst hpl
    exact (occursIn_exists _ _).mpr ⟨0, by simp [isPre]⟩
  · obtain ⟨i, hi⟩ := (occursIn_exists pat s).mp h
    have hle : i ≤ s.length := by
      by_contra hgt
      rw [List.drop_eq_nil_of_le (by omega)] at hi
      cases pat with
      | nil => exact hpl rfl
      | cons x xs => simp [isPre] at hi
    refine (occursIn_exists _ _).mpr ⟨a.length + i, ?_⟩
    rw [List.drop_append, List.drop_append_of_le_length hle]
    exact isPre_append_right pat _ b hi

theorem exists_trim_infix (s : Str) : ∃ a b, s = a ++ (trim s ++ b) := by
  refine ⟨s.takeWhile Char.isWhitespace,
    ((trimLeft s).reverse.takeWhile Char.isWhitespace).reverse, ?_⟩
  conv_lhs => rw [← List.takeWhile_append_dropWhile Char.isWhitespace s]
  have h2 : trimLeft s = trim s ++ ((trimLeft s).reverse.takeWhile Char.isWhitespace).reverse := by
    conv_lhs => rw [← List.reverse_reverse (trimLeft s),
      ← List.takeWhile_append_dropWhile Char.isWhitespace (trimLeft s).reverse]
    rw [List.reverse_append]
    rfl
  rw [← h2]
  rfl

theorem occursIn_trim (pat s : Str) (h : occursIn pat (trim s)) : occursIn pat s := by
  obtain ⟨a, b, hs⟩ := exists_trim_infix s
  rw [hs]
  exact occursIn_of_infix pat (trim s) a b h

/-! ## Claim C7 -/

/-- C7 as stated is false: a marker-free line is classified as `Code`, but its
stored text is the *trimmed* input, and `reconstruct` therefore returns the
trimmed input, not the original: `" x "` comes back as `"x"`. -/
theorem no_marker_counterexample :
    ¬ occursIn "#=".toList " x ".toList ∧
    CodeLine.reconstruct (splitLine " x ".toList "#=".toList "#".toList fun _ => none)
      "R".toList ≠ " x ".toList := by
  decide

/-- C7 amended: an input without the marker is classified as `Code` carrying
the trimmed input, and `reconstruct` (with any result string) returns that
trimmed input — hence the original text exactly when the input equals its own
trim. -/
theorem no_marker_code (input marker comment R : Str) (det : Str → Option Str)
    (h : ¬ occursIn marker input) :
    splitLine input marker comment det = CodeLine.code (trim input) ∧
    CodeLine.reconstruct (splitLine input marker comment det) R = trim input := by
  have hfind : findSub (trim input) marker = none := by
    cases hf : findSub (trim input) marker with
    | none => rfl
    | some j =>
      refine absurd (occursIn_trim marker input ?_) h
      unfold occursIn
      rw [hf]
      simp
  constructor
  · simp only [splitLine, hfind]
  · simp only [splitLine, hfind, CodeLine.reconstruct]

theorem no_marker_code_witness :
    splitLine " a b ".toList "#=".toList "#".toList (fun _ => none) =
      CodeLine.code (trim " a b ".toList) ∧
    CodeLine.reconstruct (splitLine " a b ".toList "#=".toList "#".toList fun _ => none)
      "R".toList = trim " a b ".toList :=
  no_marker_code " a b ".toList "#=".toList "#".toList "R".toList (fun _ => none) (by decide)

/-! ## Exact location of the first occurrence -/

theorem findSub_some_iff (s pat : Str) (j : Nat) :
    findSub s pat = some j ↔
      isPre pat (List.drop j s) = true ∧ ∀ k, k < j → ¬ isPre pat (List.drop k s) = true := by
  induction s generalizing j with
  | nil =>
    cases pat with
    | nil =>
      simp only [findSub, if_pos rfl]
      constructor
      · intro h
        injection h with h
        subst h
        exact ⟨rfl, fun k hk => absurd hk (Nat.not_lt_zero k)⟩
      · rintro ⟨h1, h2⟩
        cases j with
        | zero => rfl
        | succ n => exact absurd rfl (h2 0 (Nat.succ_pos n))
    | cons a as =>
      simp only [findSub]
      rw [if_neg (by simp)]
      constructor
      · intro h
        cases h
      · rintro ⟨h1, _⟩
        rw [List.drop_nil] at h1
        simp [isPre] at h1
  | cons c t ih =>
    rw [findSub]
    split_ifs with hpre
    · constructor
      · intro h
        injection h with h
        subst h
        exact ⟨by simpa using hpre, fun k hk => absurd hk (Nat.not_lt_zero k)⟩
      · rintro ⟨h1, h2⟩
        cases j with
        | zero => rfl
        | succ n => exact absurd (by simpa using hpre) (h2 0 (Nat.succ_pos n))
    · rw [Option.map_eq_some']
      constructor
      · rintro ⟨m, hm, rfl⟩
        obtain ⟨g1, g2⟩ := (ih m).mp hm
        refine ⟨by simpa [List.drop_succ_cons] using g1, ?_⟩
        intro k hk
        cases k with
        | zero => simpa using hpre
        | succ k' =>
          rw [List.drop_succ_cons]
          exact g2 k' (by omega)
      · rintro ⟨h1, h2⟩
        cases j with
        | zero => exact absurd (by simpa using h1) hpre
        | succ n =>
          refine ⟨n, (ih n).mpr ⟨by simpa [List.drop_succ_cons] using h1, ?_⟩, rfl⟩
          intro k hk
          have hk2 := h2 (k + 1) (by omega)
          simpa [List.drop_succ_cons] using hk2

theorem isPre_self_append (pat t : Str) : isPre pat (pat ++ t) = true := by
  induction pat with
  | nil => rfl
  | cons p ps ih => simp [isPre, ih]

theorem findSub_of_isPre (s pat : Str) (hp : pat ≠ []) (h : isPre pat s = true) :
    findSub s pat = some 0 := by
  cases s with
  | nil =>
    cases pat with
    | nil => exact absurd rfl hp
    | cons a as => simp [isPre] at h
  | cons c t => rw [findSub, if_pos h]

theorem findSub_eq_none_of_not_occursIn (s pat : Str) (h : ¬ occursIn pat s) :
    findSub s pat = none := by
  unfold occursIn at h
  exact not_not.mp h

theorem isPre_ne_nil (pat s : Str) (hp : pat ≠ []) (h : isPre pat s = true) : s ≠ [] := by
  cases s with
  | nil =>
    cases pat with
    | nil => exact absurd rfl hp
    | cons a as => simp [isPre] at h
  | cons c t => simp

/-- A whitespace-free pattern matching across a whitespace boundary must in
fact match before it. -/
theorem isPre_append_ws_boundary : ∀ pat : Str, (∀ c ∈ pat, c.isWhitespace = false) →
    ∀ (x y : Str) (c0 : Char), c0.isWhitespace = true →
    isPre pat (x ++ (c0 :: y)) = true → isPre pat x = true := by
  intro pat
  induction pat with
  | nil =>
    intro _ x y c0 _ _
    rfl
  | cons p ps ih =>
    intro hws x y c0 hc0 h
    cases x with
    | nil =>
      rw [List.nil_append, isPre] at h
      simp only [Bool.and_eq_true, decide_eq_true_eq] at h
      have hpw := hws p (List.mem_cons_self p ps)
      rw [h.1, hc0] at hpw
      cases hpw
    | cons b bs =>
      rw [List.cons_append, isPre] at h
      simp only [Bool.and_eq_true, decide_eq_true_eq] at h
      rw [isPre]
      simp only [Bool.and_eq_true, decide_eq_true_eq]
      exact ⟨h.1, ih (fun c hc => hws c (List.mem_cons_of_mem p hc)) bs y c0 hc0 h.2⟩

theorem occursIn_cons (pat : Str) (b : Char) (bs : Str) (h : occursIn pat bs) :
    occursIn pat (b :: bs) := by
  obtain ⟨i, hi⟩ := (occursIn_exists pat bs).mp h
  exact (occursIn_exists pat (b :: bs)).mpr ⟨i + 1, by simpa [List.drop_succ_cons] using hi⟩

/-- Searching in `x ++ " " ++ y` for a whitespace-free pattern absent from `x`
is searching in `y`, shifted. -/
theorem findSub_append_space (x y pat : Str) (hpat : pat ≠ [])
    (hws : ∀ c ∈ pat, c.isWhitespace = false) (hx : ¬ occursIn pat x) :
    findSub (x ++ (' ' :: y)) pat = (findSub y pat).map (· + (x.length + 1)) := by
  induction x with
  | nil =>
    rw [List.nil_append, findSub]
    rw [if_neg ?hno]
    case hno =>
      intro hp
      cases pat with
      | nil => exact hpat rfl
      | cons p ps =>
        rw [isPre] at hp
        simp only [Bool.and_eq_true, decide_eq_true_eq] at hp
        have hpw := hws p (List.mem_cons_self p ps)
        rw [hp.1] at hpw
        exact absurd hpw (by decide)
    cases findSub y pat <;> simp
  | cons b bs ih =>
    rw [List.cons_append, findSub]
    rw [if_neg ?hno2]
    case hno2 =>
      intro hp
      have hp2 : isPre pat ((b :: bs) ++ (' ' :: y)) = true := by
        rw [List.cons_append]
        exact hp
      have hpre := isPre_append_ws_boundary pat hws (b :: bs) y ' ' (by decide) hp2
      exact hx ((occursIn_exists pat (b :: bs)).mpr ⟨0, by simpa using hpre⟩)
    have hbs : ¬ occursIn pat bs := fun hocc => hx (occursIn_cons pat b bs hocc)
    rw [ih hbs]
    cases findSub y pat with
    | none => simp
    | some m =>
      simp only [Option.map_some']
      congr 1

/-! ## Trim lemmas -/

theorem head?_dropWhile_ws (l : Str) :
    ∀ c, (l.dropWhile Char.isWhitespace).head? = some c → c.isWhitespace = false := by
  induction l with
  | nil =>
    intro c hc
    simp at hc
  | cons a t ih =>
    rw [List.dropWhile_cons]
    split_ifs with h
    · exact ih
    · intro c hc
      rw [List.head?_cons, Option.some_inj] at hc
      subst hc
      exact Bool.eq_false_iff.mpr h

theorem trimLeft_head (s : Str) :
    ∀ c, (trimLeft s).head? = some c → c.isWhitespace = false :=
  head?_dropWhile_ws s

theorem trimRight_prefix_eq (z : Str) :
    trimRight z ++ (z.reverse.takeWhile Char.isWhitespace).reverse = z := by
  rw [trimRight, ← List.reverse_append, List.takeWhile_append_dropWhile, List.reverse_reverse]

theorem getLast?_trimRight (z : Str) :
    ∀ c, (trimRight z).getLast? = some c → c.isWhitespace = false := by
  intro c hc
  rw [trimRight, List.getLast?_reverse] at hc
  exact head?_dropWhile_ws z.reverse c hc

theorem head?_trim (s : Str) :
    ∀ c, (trim s).head? = some c → c.isWhitespace = false := by
  intro c hc
  have hpre := trimRight_prefix_eq (trimLeft s)
  cases htr : trim s with
  | nil =>
    rw [htr] at hc
    cases hc
  | cons d ds =>
    rw [htr, List.head?_cons, Option.some_inj] at hc
    have h1 : trimRight (trimLeft s) = d :: ds := htr
    have hx : (trimLeft s).head? = some d := by
      rw [← hpre, h1]
      simp
    rw [← hc]
    exact trimLeft_head s d hx

theorem getLast?_trim (s : Str) :
    ∀ c, (trim s).getLast? = some c → c.isWhitespace = false :=
  fun c hc => getLast?_trimRight (trimLeft s) c hc

theorem trimLeft_cons_not_ws (c : Char) (t : Str) (h : c.isWhitespace = false) :
    trimLeft (c :: t) = c :: t := by
  rw [trimLeft, List.dropWhile_cons, if_neg (by simp [h])]

theorem trimLeft_eq_self (s : Str)
    (h : ∀ c, s.head? = some c → c.isWhitespace = false) : trimLeft s = s := by
  cases s with
  | nil => rfl
  | cons a t => exact trimLeft_cons_not_ws a t (h a rfl)

theorem trimRight_eq_self (s : Str)
    (h : ∀ c, s.getLast? = some c → c.isWhitespace = false) : trimRight s = s := by
  have h2 : trimLeft s.reverse = s.reverse :=
    trimLeft_eq_self s.reverse fun c hc => h c (by rwa [List.head?_reverse] at hc)
  rw [trimRight]
  rw [show s.reverse.dropWhile Char.isWhitespace = s.reverse from h2]
  exact List.reverse_reverse s

theorem trim_eq_self (s : Str)
    (hh : ∀ c, s.head? = some c → c.isWhitespace = false)
    (hl : ∀ c, s.getLast? = some c → c.isWhitespace = false) : trim s = s := by
  rw [trim, trimLeft_eq_self s hh, trimRight_eq_self s hl]

theorem trim_idem (s : Str) : trim (trim s) = trim s :=
  trim_eq_self (trim s) (head?_trim s) (getLast?_trim s)

theorem trimLeft_eq_self_of_trim (s : Str) (h : trim s = s) : trimLeft s = s :=
  trimLeft_eq_self s fun c hc => head?_trim s c (by rwa [h])

theorem trimRight_eq_self_of_trim (s : Str) (h : trim s = s) : trimRight s = s :=
  trimRight_eq_self s fun c hc => getLast?_trim s c (by rwa [h])

theorem trim_cons_space (t : Str) : trim (' ' :: t) = trim t := by
  rw [trim, trimLeft, List.dropWhile_cons, if_pos (by decide)]
  rfl

theorem trimRight_append_space (R : Str) (hR : trimRight R = R) :
    trimRight (R ++ [' ']) = R := by
  rw [trimRight, List.reverse_append]
  simp only [List.reverse_cons, List.reverse_nil, List.nil_append, List.singleton_append]
  rw [List.dropWhile_cons, if_pos (by decide)]
  exact hR

theorem trim_space_pad (R : Str) (hR : trim R = R) : trim (' ' :: R) = R := by
  rw [trim_cons_space, hR]

theorem trim_append_space (R : Str) (hR : trim R = R) : trim (R ++ [' ']) = R := by
  cases R with
  | nil => rfl
  | cons a t =>
    have hhead : a.isWhitespace = false := head?_trim (a :: t) a (by rw [hR]; rfl)
    rw [trim, List.cons_append, trimLeft_cons_not_ws a (t ++ [' ']) hhead, ← List.cons_append]
    exact trimRight_append_space (a :: t) (trimRight_eq_self_of_trim (a :: t) hR)

theorem trim_space_pad_both (R : Str) (hR : trim R = R) :
    trim (' ' :: (R ++ [' '])) = R := by
  rw [trim_cons_space, trim_append_space R hR]

theorem isPre_trimRight (pat s : Str)
    (hws : ∀ c ∈ pat, c.isWhitespace = false) (h : isPre pat s = true) :
    isPre pat (trimRight s) = true := by
  have hp := trimRight_prefix_eq s
  have hwws : ∀ c ∈ (s.reverse.takeWhile Char.isWhitespace).reverse,
      c.isWhitespace = true := by
    intro c hc
    rw [List.mem_reverse] at hc
    exact List.mem_takeWhile_imp hc
  cases hwc : (s.reverse.takeWhile Char.isWhitespace).reverse with
  | nil =>
    rw [hwc, List.append_nil] at hp
    rw [hp]
    exact h
  | cons w0 ws' =>
    have hw0 : w0.isWhitespace = true := hwws w0 (by rw [hwc]; exact List.mem_cons_self _ _)
    refine isPre_append_ws_boundary pat hws (trimRight s) ws' w0 hw0 ?_
    rw [← hwc, hp]
    exact h

/-! ## Result extraction from a reconstructed line -/

theorem splitLine_result_of (input marker comment T' : Str) (det : Str → Option Str)
    (pos : Nat) (R tail : Str)
    (htrim : trim input = T')
    (hfind : findSub T' marker = some pos)
    (hAM : (T'.drop pos).drop marker.length = ' ' :: (R ++ tail))
    (hcn : comment ≠ []) (hcw : ∀ c ∈ comment, c.isWhitespace = false)
    (hR : R ≠ []) (hRt : trim R = R) (hRocc : ¬ occursIn comment R)
    (htail : tail = [] ∨ ∃ cm, tail = ' ' :: cm ∧ isPre comment cm = true) :
    CodeLine.result (splitLine input marker comment det) = some R := by
  have hAMempty : ¬ occursIn comment ([] : Str) := by
    simp [occursIn, findSub, hcn]
  rcases htail with rfl | ⟨cm, rfl, hpre⟩
  · have hC : findSub (' ' :: (R ++ ([] : Str))) comment = none := by
      have h2 := findSub_append_space [] (R ++ []) comment hcn hcw hAMempty
      rw [List.nil_append] at h2
      rw [h2, List.append_nil, findSub_eq_none_of_not_occursIn R comment hRocc]
      rfl
    have hres : trim (' ' :: (R ++ ([] : Str))) = R := by
      rw [List.append_nil]
      exact trim_space_pad R hRt
    simp only [splitLine, htrim, hfind, hAM, hC]
    cases det (trim (T'.take pos)) <;>
      simp [CodeLine.result, hres, trim_space_pad R hRt, hR]
  · have h0 : findSub cm comment = some 0 := findSub_of_isPre cm comment hcn hpre
    have h1 := findSub_append_space R cm comment hcn hcw hRocc
    have h2 := findSub_append_space [] (R ++ (' ' :: cm)) comment hcn hcw hAMempty
    rw [List.nil_append] at h2
    have hC : findSub (' ' :: (R ++ (' ' :: cm))) comment = some (R.length + 1 + 1) := by
      rw [h2, h1, h0]
      simp
    have htake : (' ' :: (R ++ (' ' :: cm))).take (R.length + 1 + 1) = ' ' :: (R ++ [' ']) := by
      rw [List.take_succ_cons, List.take_append]
      simp
    have hres : trim (' ' :: (R ++ [' '])) = R := trim_space_pad_both R hRt
    simp only [splitLine, htrim, hfind, hAM, hC, htake]
    cases det (trim (T'.take pos)) <;> simp [CodeLine.result, hres, hR]

theorem result_splitLine_reconstructed
    (code0 marker comment R tail : Str) (det : Str → Option Str)
    (hm : marker ≠ []) (hmw : ∀ c ∈ marker, c.isWhitespace = false)
    (hcn : comment ≠ []) (hcw : ∀ c ∈ comment, c.isWhitespace = false)
    (hR : R ≠ []) (hRt : trim R = R) (hRocc : ¬ occursIn comment R)
    (hcode : trim code0 = code0) (hcocc : ¬ occursIn marker code0)
    (htail : tail = [] ∨
      ∃ cm, tail = ' ' :: cm ∧ isPre comment cm = true ∧ trim cm = cm ∧ cm ≠ []) :
    CodeLine.result (splitLine (code0 ++ (' ' :: (marker ++ (' ' :: (R ++ tail)))))
      marker comment det) = some R := by
  have htail' : tail = [] ∨ ∃ cm, tail = ' ' :: cm ∧ isPre comment cm = true := by
    rcases htail with h | ⟨cm, h1, h2, _, _⟩
    · exact Or.inl h
    · exact Or.inr ⟨cm, h1, h2⟩
  have hZlast : ∀ c, (marker ++ (' ' :: (R ++ tail))).getLast? = some c →
      c.isWhitespace = false := by
    intro c hc
    rw [List.getLast?_append_of_ne_nil marker (by simp)] at hc
    rw [show (' ' :: (R ++ tail)) = [' '] ++ (R ++ tail) from rfl,
      List.getLast?_append_of_ne_nil [' ']
        (by rcases htail with h | ⟨cm, h1, _, _, _⟩ <;> simp [hR])] at hc
    rcases htail with rfl | ⟨cm, rfl, _, hcmt, hcmne⟩
    · rw [List.append_nil] at hc
      exact getLast?_trim R c (by rwa [hRt])
    · rw [List.getLast?_append_of_ne_nil R (by simp)] at hc
      rw [show (' ' :: cm) = [' '] ++ cm from rfl,
        List.getLast?_append_of_ne_nil [' '] hcmne] at hc
      exact getLast?_trim cm c (by rwa [hcmt])
  have hZhead : ∀ c, (marker ++ (' ' :: (R ++ tail))).head? = some c →
      c.isWhitespace = false := by
    intro c hc
    cases marker with
    | nil => exact absurd rfl hm
    | cons m0 ms =>
      rw [List.cons_append, List.head?_cons, Option.some_inj] at hc
      rw [← hc]
      exact hmw m0 (List.mem_cons_self _ _)
  have hZtrim : trim (marker ++ (' ' :: (R ++ tail))) = marker ++ (' ' :: (R ++ tail)) :=
    trim_eq_self _ hZhead hZlast
  have hZfind : findSub (marker ++ (' ' :: (R ++ tail))) marker = some 0 :=
    findSub_of_isPre _ marker hm (isPre_self_append marker _)
  cases hc0 : code0 with
  | nil =>
    subst hc0
    rw [List.nil_append]
    have htrim : trim (' ' :: (marker ++ (' ' :: (R ++ tail)))) =
        marker ++ (' ' :: (R ++ tail)) := by
      rw [trim_cons_space, hZtrim]
    have hAM : (((marker ++ (' ' :: (R ++ tail))).drop 0).drop marker.length) =
        ' ' :: (R ++ tail) := by
      rw [List.drop_zero, List.drop_left]
    exact splitLine_result_of _ marker comment _ det 0 R tail htrim hZfind hAM
      hcn hcw hR hRt hRocc htail'
  | cons a t =>
    subst hc0
    have hhead : a.isWhitespace = false := head?_trim (a :: t) a (by rw [hcode]; rfl)
    have htrim : trim ((a :: t) ++ (' ' :: (marker ++ (' ' :: (R ++ tail))))) =
        (a :: t) ++ (' ' :: (marker ++ (' ' :: (R ++ tail)))) := by
      refine trim_eq_self _ ?_ ?_
      · intro c hc
        rw [List.cons_append, List.head?_cons, Option.some_inj] at hc
        rw [← hc]
        exact hhead
      · intro c hc
        rw [List.getLast?_append_of_ne_nil (a :: t) (by simp)] at hc
        rw [show (' ' :: (marker ++ (' ' :: (R ++ tail)))) =
            [' '] ++ (marker ++ (' ' :: (R ++ tail))) from rfl,
          List.getLast?_append_of_ne_nil [' ']
            (by cases marker with | nil => exact absurd rfl hm | cons m0 ms => simp)] at hc
        exact hZlast c hc
    have hfind : findSub ((a :: t) ++ (' ' :: (marker ++ (' ' :: (R ++ tail))))) marker =
        some ((a :: t).length + 1) := by
      rw [findSub_append_space (a :: t) _ marker hm hmw hcocc, hZfind]
      simp
    have hAM : ((((a :: t) ++ (' ' :: (marker ++ (' ' :: (R ++ tail))))).drop
        ((a :: t).length + 1)).drop marker.length) = ' ' :: (R ++ tail) := by
      rw [List.drop_append, List.drop_one]
      simp only [List.tail_cons]
      rw [List.drop_left]
    exact splitLine_result_of _ marker comment _ det ((a :: t).length + 1) R tail htrim
      hfind hAM hcn hcw hR hRt hRocc htail'

/-! ## Claim C6 -/

/-- C6 as stated is false: re-parsing the reconstruction splits the new result
at the first comment-prefix occurrence, so a result containing `"#"` does not
survive: with `R = "a#b"` the re-parse yields `Some("a")`. -/
theorem eval_reconstruct_counterexample :
    (splitLine "x #= 1".toList "#=".toList "#".toList fun _ => none).evalLike ∧
    "a#b".toList ≠ [] ∧
    CodeLine.result (splitLine
      (CodeLine.reconstruct (splitLine "x #= 1".toList "#=".toList "#".toList fun _ => none)
        "a#b".toList) "#=".toList "#".toList fun _ => none) ≠ some "a#b".toList := by
  decide

/-- C6 amended: for a non-empty marker and comment prefix made of
non-whitespace characters, and for every non-empty result string `R` that
equals its own trim and contains no occurrence of the comment prefix,
re-parsing the reconstruction of an evaluable line yields `prior_result =
Some(R)`. -/
theorem eval_reconstruct_result (line marker comment R : Str) (det : Str → Option Str)
    (hm : marker ≠ []) (hmw : ∀ c ∈ marker, c.isWhitespace = false)
    (hcn : comment ≠ []) (hcw : ∀ c ∈ comment, c.isWhitespace = false)
    (hR : R ≠ []) (hRt : trim R = R) (hRocc : ¬ occursIn comment R)
    (hev : (splitLine line marker comment det).evalLike) :
    CodeLine.result (splitLine
      (CodeLine.reconstruct (splitLine line marker comment det) R) marker comment det) =
      some R := by
  cases hfind : findSub (trim line) marker with
  | none =>
    exfalso
    simp only [splitLine, hfind, CodeLine.evalLike] at hev
  | some pos =>
    have hfacts := (findSub_some_iff (trim line) marker pos).mp hfind
    have hcode : trim (trim ((trim line).take pos)) = trim ((trim line).take pos) :=
      trim_idem _
    have hcocc : ¬ occursIn marker (trim ((trim line).take pos)) := by
      intro hocc
      obtain ⟨i, hi⟩ := (occursIn_exists _ _).mp (occursIn_trim _ _ hocc)
      have hne := isPre_ne_nil marker _ hm hi
      have hilt : i < ((trim line).take pos).length := by
        by_contra hge
        exact hne (List.drop_eq_nil_of_le (by omega))
      rw [List.length_take] at hilt
      have hipos : i < pos := by omega
      have hidrop : isPre marker ((trim line).drop i) = true := by
        have hsplit : (trim line).drop i =
            ((trim line).take pos).drop i ++ (trim line).drop pos := by
          conv_lhs => rw [← List.take_append_drop pos (trim line)]
          rw [List.drop_append_of_le_length (by rw [List.length_take]; omega)]
        rw [hsplit]
        exact isPre_append_right marker _ _ hi
      exact (hfacts.2 i hipos) hidrop
    cases hcf : findSub (((trim line).drop pos).drop marker.length) comment with
    | none =>
      have hrec : CodeLine.reconstruct (splitLine line marker comment det) R =
          trim ((trim line).take pos) ++
            (' ' :: (marker ++ (' ' :: (R ++ ([] : Str))))) := by
        simp only [splitLine, hfind, hcf]
        cases det (trim ((trim line).take pos)) <;>
          simp [CodeLine.reconstruct, List.append_assoc]
      rw [hrec]
      exact result_splitLine_reconstructed _ marker comment R [] det hm hmw hcn hcw
        hR hRt hRocc hcode hcocc (Or.inl rfl)
    | some cpos =>
      have hcmpre : isPre comment
          ((((trim line).drop pos).drop marker.length).drop cpos) = true :=
        ((findSub_some_iff _ comment cpos).mp hcf).1
      have hcmhead : ∀ c,
          ((((trim line).drop pos).drop marker.length).drop cpos).head? = some c →
          c.isWhitespace = false := by
        intro c hc
        cases hcm : comment with
        | nil => exact absurd hcm hcn
        | cons c0 cs =>
          rw [hcm] at hcmpre
          cases hcm0 : (((trim line).drop pos).drop marker.length).drop cpos with
          | nil =>
            rw [hcm0] at hcmpre
            simp [isPre] at hcmpre
          | cons d ds =>
            rw [hcm0] at hcmpre hc
            rw [isPre] at hcmpre
            simp only [Bool.and_eq_true, decide_eq_true_eq] at hcmpre
            rw [List.head?_cons, Option.some_inj] at hc
            have hcw0 := hcw c0 (by rw [hcm]; exact List.mem_cons_self _ _)
            rw [hcmpre.1] at hcw0
            rw [← hc]
            exact hcw0
      have htL : trimLeft ((((trim line).drop pos).drop marker.length).drop cpos) =
          (((trim line).drop pos).drop marker.length).drop cpos :=
        trimLeft_eq_self _ hcmhead
      have hcmpre2 : isPre comment
          (trim ((((trim line).drop pos).drop marker.length).drop cpos)) = true := by
        rw [trim, htL]
        exact isPre_trimRight comment _ hcw hcmpre
      have hcmne : trim ((((trim line).drop pos).drop marker.length).drop cpos) ≠ [] :=
        isPre_ne_nil comment _ hcn hcmpre2
      have hrec : CodeLine.reconstruct (splitLine line marker comment det) R =
          trim ((trim line).take pos) ++ (' ' :: (marker ++ (' ' :: (R ++
            (' ' :: trim ((((trim line).drop pos).drop marker.length).drop cpos)))))) := by
        simp only [splitLine, hfind, hcf]
        cases det (trim ((trim line).take pos)) <;>
          simp [CodeLine.reconstruct, List.append_assoc, trim_idem]
      rw [hrec]
      exact result_splitLine_reconstructed _ marker comment R
        (' ' :: trim ((((trim line).drop pos).drop marker.length).drop cpos)) det
        hm hmw hcn hcw hR hRt hRocc hcode hcocc
        (Or.inr ⟨_, rfl, hcmpre2, trim_idem _, hcmne⟩)

theorem eval_reconstruct_result_witness :
    CodeLine.result (splitLine
      (CodeLine.reconstruct (splitLine "b + 2 #= 6 # note".toList "#=".toList "#".toList
        fun _ => none) "42".toList) "#=".toList "#".toList fun _ => none) =
      some "42".toList :=
  eval_reconstruct_result "b + 2 #= 6 # note".toList "#=".toList "#".toList "42".toList
    (fun _ => none) (by decide) (by decide) (by decide) (by decide) (by decide)
    (by decide) (by decide) (by decide)

end EqualsRs
